import Mathlib

/-!
Shallow embedding of the instinct-driven MCTS engine
(`src/core/Node.js` and `src/core/InstinctMCTS.js`).

Numbers are modelled as exact rationals (`ℚ`); visit counts as `ℕ`.
`Math.sqrt` and `Math.log` are threaded through as abstract function
parameters, since no claim depends on their analytic values.
The mutable parent/child object graph is modelled as a rose tree; a node is
addressed by the list of child indices leading to it from the root, and the
walk from a node up its parent chain to the root touches exactly the nodes
addressed by the prefixes of that list.
-/

namespace LLMInstinct

/-- JS `Math.max` on two (non-NaN) numbers. -/
def jsMax (a b : ℚ) : ℚ := if a ≤ b then b else a

/-- JS `Math.min` on two (non-NaN) numbers. -/
def jsMin (a b : ℚ) : ℚ := if b ≤ a then b else a

/-- The JS clamp pattern `Math.max(0, Math.min(1, x))`. -/
def clamp01 (x : ℚ) : ℚ := jsMax 0 (jsMin 1 x)

/-- The per-node mutable state of `Node.js`: content, search statistics,
the four instinct metrics, and the coefficients copied from the engine. -/
structure NodeState where
  content : String
  visits : ℕ
  value : ℚ
  emotionalState : ℚ
  instinctWeight : ℚ
  confidence : ℚ
  perseverance : ℚ
  explorationWeight : ℚ
  confidenceBias : ℚ
  perseveranceFactor : ℚ
  deriving Repr, DecidableEq

/-- The coefficients a node inherits from the engine (or its parent). -/
structure Coeffs where
  explorationWeight : ℚ
  confidenceBias : ℚ
  perseveranceFactor : ℚ
  deriving Repr, DecidableEq

/-- The `Node` constructor: fresh statistics, all four metrics at the
neutral 0.5, coefficients as supplied. -/
def newNode (content : String) (cf : Coeffs) : NodeState :=
  { content := content
    visits := 0
    value := 0
    emotionalState := 1/2
    instinctWeight := 1/2
    confidence := 1/2
    perseverance := 1/2
    explorationWeight := cf.explorationWeight
    confidenceBias := cf.confidenceBias
    perseveranceFactor := cf.perseveranceFactor }

/-- The decision tree owned by the engine: each node carries its state and
an ordered list of children (insertion order). -/
inductive Tree where
  | node (s : NodeState) (children : List Tree)
  deriving Repr

/-- State stored at the root of a (sub)tree. -/
def Tree.state : Tree → NodeState
  | .node s _ => s

/-- Children of the root of a (sub)tree. -/
def Tree.kids : Tree → List Tree
  | .node _ cs => cs

mutual
/-- Height of a tree: 1 for a leaf. -/
def Tree.ht : Tree → ℕ
  | .node _ cs => htList cs + 1
/-- Maximum height over a list of trees. -/
def htList : List Tree → ℕ
  | [] => 0
  | c :: cs => max c.ht (htList cs)
end

/-- Look up the state of the node addressed by a child-index path. -/
def getNode : List ℕ → Tree → Option NodeState
  | [], .node s _ => some s
  | i :: p, .node _ cs => (cs.get? i).bind (getNode p)

/-- Apply `f` to the list element at index `i` (identity when out of range),
as JS indexed child access does. -/
def modifyIdx (f : Tree → Tree) : ℕ → List Tree → List Tree
  | _, [] => []
  | 0, c :: cs => f c :: cs
  | n + 1, c :: cs => c :: modifyIdx f n cs

/-- Apply `f` to the subtree addressed by a path (identity when the path
does not exist). -/
def modifyAt (f : Tree → Tree) : List ℕ → Tree → Tree
  | [], t => f t
  | i :: p, .node s cs => .node s (modifyIdx (modifyAt f p) i cs)

/-- One node's update inside `InstinctMCTS.backpropagate`: `visits += 1`,
`value += score`, and emotionalState nudged by `((score/10) - 0.5) * 0.2`
then clamped to `[0,1]`. -/
def updStat (score : ℚ) (s : NodeState) : NodeState :=
  { s with
    visits := s.visits + 1
    value := s.value + score
    emotionalState := clamp01 (s.emotionalState + (score / 10 - 1/2) * (1/5)) }

/-- `InstinctMCTS.backpropagate(node, score)`: the walk from the node at
the given path up through its parent chain updates, with `updStat`, exactly
the nodes on the root-to-node path. -/
def backpropagate (score : ℚ) : List ℕ → Tree → Tree
  | [], .node s cs => .node (updStat score s) cs
  | i :: p, .node s cs => .node (updStat score s) (modifyIdx (backpropagate score p) i cs)

/-- Is `q` an ancestor-or-self position of `p` (a prefix of the path)? -/
def onPath : List ℕ → List ℕ → Bool
  | [], _ => true
  | _ :: _, [] => false
  | a :: as, b :: bs => a == b && onPath as bs

theorem get?_modifyIdx (f : Tree → Tree) (i j : ℕ) (l : List Tree) :
    (modifyIdx f i l).get? j = if i = j then (l.get? j).map f else l.get? j := by
  induction l generalizing i j with
  | nil => simp [modifyIdx]
  | cons c cs ih =>
      cases i with
      | zero =>
          cases j with
          | zero => simp [modifyIdx]
          | succ j => simp [modifyIdx]
      | succ i =>
          cases j with
          | zero => simp [modifyIdx]
          | succ j => simpa [modifyIdx] using ih i j

theorem getNode_backpropagate (score : ℚ) (p q : List ℕ) (t : Tree) :
    getNode q (backpropagate score p t) =
      if onPath q p then (getNode q t).map (updStat score) else getNode q t := by
  induction p generalizing q t with
  | nil =>
      cases t with
      | node s cs =>
          cases q with
          | nil => simp [onPath, backpropagate, getNode]
          | cons a as => simp [onPath, backpropagate, getNode]
  | cons i p ih =>
      cases t with
      | node s cs =>
          cases q with
          | nil => simp [onPath, backpropagate, getNode]
          | cons a as =>
              have hL : getNode (a :: as) (backpropagate score (i :: p) (.node s cs)) =
                  ((modifyIdx (backpropagate score p) i cs).get? a).bind (getNode as) := rfl
              rw [hL, get?_modifyIdx]
              by_cases hai : i = a
              · subst hai
                rw [if_pos rfl]
                cases hget : cs.get? i with
                | none =>
                    have hR : getNode (i :: as) (Tree.node s cs) = (cs.get? i).bind (getNode as) := rfl
                    rw [hR, hget]
                    simp
                | some c =>
                    have hR : getNode (i :: as) (Tree.node s cs) = (cs.get? i).bind (getNode as) := rfl
                    have hcond : onPath (i :: as) (i :: p) = onPath as p := by
                      simp [onPath]
                    rw [hcond, hR, hget]
                    simpa using ih as c
              · rw [if_neg hai]
                have hcond : onPath (a :: as) (i :: p) = false := by
                  simp [onPath, beq_iff_eq]
                  intro h
                  omega
                have hR : getNode (a :: as) (Tree.node s cs) = (cs.get? a).bind (getNode as) := rfl
                rw [hcond, hR]
                simp

/-- C5: `backpropagate(node, score)` increments `visits` by exactly 1 and
`value` by exactly `score` at the node and at each of its ancestors up to
and including the root (exactly the prefixes of the node's path, each
updated exactly once; a parentless node — path `[]` — receives exactly one
update), adds `((score/10) - 0.5) * 0.2` to each such node's
emotionalState clamped to `[0,1]`, and changes no other node. -/
theorem C5_backpropagate_exact (score : ℚ) (p q : List ℕ) (t : Tree) :
    (getNode q (backpropagate score p t) =
      if onPath q p then (getNode q t).map (updStat score) else getNode q t) ∧
    (∀ s : NodeState,
      (updStat score s).visits = s.visits + 1 ∧
      (updStat score s).value = s.value + score ∧
      (updStat score s).emotionalState =
        clamp01 (s.emotionalState + (score / 10 - 1/2) * (1/5)) ∧
      (updStat score s).content = s.content ∧
      (updStat score s).instinctWeight = s.instinctWeight ∧
      (updStat score s).confidence = s.confidence ∧
      (updStat score s).perseverance = s.perseverance) := by
  refine ⟨getNode_backpropagate score p q t, ?_⟩
  intro s
  exact ⟨rfl, rfl, rfl, rfl, rfl, rfl, rfl⟩

/-! ## The evaluation step (`InstinctMCTS.simulate(node)`, the node scorer) -/

/-- Does `needle` occur at the head of `hay`? -/
def leadSeq : List Char → List Char → Bool
  | [], _ => true
  | _ :: _, [] => false
  | a :: as, b :: bs => a == b && leadSeq as bs

/-- Does `needle` occur as a contiguous subsequence of `hay`
(JS `String.prototype.includes`)? -/
def hasSeq (needle : List Char) : List Char → Bool
  | [] => needle.isEmpty
  | c :: rest => leadSeq needle (c :: rest) || hasSeq needle rest

/-- The fixed perseverance-indicator list of `_showsPerseverance`. -/
def perseveranceIndicators : List String :=
  ["continue", "persist", "keep going", "don\x27t give up",
   "try again", "despite", "nevertheless", "however",
   "still worth", "potential", "opportunity", "challenge"]

/-- The fixed doubt-indicator list of `_showsPerseverance`. -/
def doubtIndicators : List String :=
  ["stop", "quit", "abandon", "too difficult", "impossible",
   "not worth", "failure", "unlikely", "risky", "doubt"]

/-- Count how many words of a list occur (case-insensitively) as
substrings of the lowercased content. -/
def countHits (words : List String) (contentLower : List Char) : ℕ :=
  (words.filter (fun w => hasSeq (w.data.map Char.toLower) contentLower)).length

/-- `InstinctMCTS._showsPerseverance(content)`: strictly more
perseverance-indicator hits than doubt-indicator hits. -/
def showsPerseverance (content : String) : Bool :=
  let contentLower := content.data.map Char.toLower
  countHits perseveranceIndicators contentLower > countHits doubtIndicators contentLower

/-- First maximal digit run of a string (the JS regex `/(\d+)/`). -/
def firstDigitRun : List Char → Option (List Char)
  | [] => none
  | c :: cs => if c.isDigit then some (c :: cs.takeWhile Char.isDigit) else firstDigitRun cs

/-- Decimal value of a digit run (JS `parseInt(run, 10)`). -/
def runVal (l : List Char) : ℕ :=
  l.foldl (fun a c => a * 10 + (c.toNat - 48)) 0

/-- The node evaluation step (source `simulate(node)`, the spec's
`evaluate`): takes the collaborator's completion response (`.error` when
the call failed), parses the first integer clamped into 1..10 (default 5),
and multiplies by `(1 + perseveranceFactor)` when the node's content shows
perseverance; any thrown evaluation error yields 5. -/
def evaluateNode (resp : Except Unit String) (content : String) (pf : ℚ) : ℚ :=
  match resp with
  | .error _ => 5
  | .ok ev =>
      let score : ℚ :=
        match firstDigitRun ev.data with
        | some ds => jsMin 10 (jsMax 1 (runVal ds : ℚ))
        | none => 5
      if showsPerseverance content then score * (1 + pf) else score

/-- C2: for every node whose content shows strictly more perseverance-
indicator hits than doubt-indicator hits, the evaluation step returns the
parsed score (clamped into 1..10) multiplied by `(1 + perseveranceFactor)`;
it returns 5 rather than failing on any evaluation error; and for content
"I will persist and try again despite doubts", raw score 4 and
perseveranceFactor 0.5 it returns 6. -/
theorem C2_evaluate_perseverance_boost :
    (∀ (ev content : String) (pf : ℚ) (ds : List Char),
      showsPerseverance content = true →
      firstDigitRun ev.data = some ds →
      evaluateNode (.ok ev) content pf = jsMin 10 (jsMax 1 (runVal ds : ℚ)) * (1 + pf)) ∧
    (∀ (content : String) (pf : ℚ), evaluateNode (.error ()) content pf = 5) ∧
    evaluateNode (.ok "4") "I will persist and try again despite doubts" (1/2) = 6 := by
  have key : ∀ (ev content : String) (pf : ℚ) (ds : List Char),
      showsPerseverance content = true →
      firstDigitRun ev.data = some ds →
      evaluateNode (.ok ev) content pf = jsMin 10 (jsMax 1 (runVal ds : ℚ)) * (1 + pf) := by
    intro ev content pf ds hp hds
    simp only [evaluateNode, hds, hp, if_true]
  refine ⟨key, fun content pf => rfl, ?_⟩
  have h6 : evaluateNode (.ok "4") "I will persist and try again despite doubts" (1/2) =
      jsMin 10 (jsMax 1 (runVal ['4'] : ℚ)) * (1 + 1/2) :=
    key "4" "I will persist and try again despite doubts" (1/2) ['4'] (by decide) (by decide)
  rw [h6]
  have hv : runVal ['4'] = 4 := by decide
  rw [hv]
  norm_num [jsMin, jsMax]

/-- Witness for C2 at the concrete input of the claim. -/
theorem C2_evaluate_perseverance_boost_witness :
    evaluateNode (.ok "4") "I will persist and try again despite doubts" (1/2) =
      jsMin 10 (jsMax 1 (runVal ['4'] : ℚ)) * (1 + 1/2) :=
  C2_evaluate_perseverance_boost.1 "4" "I will persist and try again despite doubts"
    (1/2) ['4'] (by decide) (by decide)

/-! ## Node.uctValue -/

/-- `Node.uctValue()` from `Node.js`, with `Math.sqrt` and `Math.log`
abstracted as function parameters `sqrtF` and `logF`; `parent?` carries the
parent's visit count (`none` for the root). -/
def uctValue (sqrtF logF : ℚ → ℚ) (parent? : Option ℕ) (s : NodeState) : ℚ :=
  match parent? with
  | none => 0
  | some parentVisits =>
      let epsilon : ℚ := 1/1000000
      let exploitation := s.value / (s.visits + epsilon)
      let exploration := s.explorationWeight *
        sqrtF (logF (parentVisits + epsilon) / (s.visits + epsilon))
      let confidenceModifier := s.confidenceBias * s.emotionalState
      let perseveranceBoost := s.perseverance * s.perseveranceFactor
      exploitation + exploration * (1 + confidenceModifier) + perseveranceBoost

/-- C6: a parentless node's selection score is 0 regardless of its
statistics; for a node with a parent it equals
`value/(visits+eps) + explorationWeight * sqrt(ln(parent.visits+eps)/(visits+eps))
  * (1 + confidenceBias * emotionalState) + perseverance * perseveranceFactor`
with `eps = 1e-6`. -/
theorem C6_uctValue_formula (sqrtF logF : ℚ → ℚ) (s : NodeState) :
    uctValue sqrtF logF none s = 0 ∧
    ∀ parentVisits : ℕ,
      uctValue sqrtF logF (some parentVisits) s =
        s.value / (s.visits + 1/1000000) +
        s.explorationWeight *
          sqrtF (logF (parentVisits + 1/1000000) / (s.visits + 1/1000000)) *
          (1 + s.confidenceBias * s.emotionalState) +
        s.perseverance * s.perseveranceFactor := by
  exact ⟨rfl, fun _ => rfl⟩

/-! ## getBestNode -/

/-- The body of the `reduce` in `InstinctMCTS.getBestNode`: keep the child
with strictly greater visits, the incumbent on ties. -/
def visitStep (best child : Tree) : Tree :=
  if child.state.visits > best.state.visits then child else best

/-- `children.reduce(visitStep, children[0])`: JS `reduce` with an initial
value folds over the whole array, first comparing `children[0]` with
itself. -/
def pickChild (c : Tree) (cs : List Tree) : Tree :=
  (c :: cs).foldl visitStep c

/-- The most-visited-first-encountered child, by direct recursion;
provably equal to `pickChild`. -/
def firstMaxChild : Tree → List Tree → Tree
  | c, [] => c
  | c, x :: xs => if x.state.visits > c.state.visits then firstMaxChild x xs else firstMaxChild c xs

theorem foldl_visitStep_eq (cs : List Tree) : ∀ c : Tree,
    List.foldl visitStep c cs = firstMaxChild c cs := by
  induction cs with
  | nil => intro c; rfl
  | cons x xs ih =>
      intro c
      rw [List.foldl_cons]
      by_cases h : x.state.visits > c.state.visits
      · rw [show visitStep c x = x from by simp [visitStep, h]]
        rw [show firstMaxChild c (x :: xs) = firstMaxChild x xs from by
          rw [firstMaxChild, if_pos h]]
        exact ih x
      · rw [show visitStep c x = c from by simp [visitStep, h]]
        rw [show firstMaxChild c (x :: xs) = firstMaxChild c xs from by
          rw [firstMaxChild, if_neg h]]
        exact ih c

theorem pickChild_eq_firstMaxChild (c : Tree) (cs : List Tree) :
    pickChild c cs = firstMaxChild c cs := by
  show List.foldl visitStep c (c :: cs) = firstMaxChild c cs
  rw [List.foldl_cons, show visitStep c c = c from by simp [visitStep]]
  exact foldl_visitStep_eq cs c

theorem firstMaxChild_mem (c : Tree) (cs : List Tree) :
    firstMaxChild c cs = c ∨ firstMaxChild c cs ∈ cs := by
  induction cs generalizing c with
  | nil => exact Or.inl rfl
  | cons x xs ih =>
      rw [firstMaxChild]
      by_cases h : x.state.visits > c.state.visits
      · rw [if_pos h]
        rcases ih x with h1 | h1
        · exact Or.inr (by rw [h1]; exact List.mem_cons_self x xs)
        · exact Or.inr (List.mem_cons_of_mem x h1)
      · rw [if_neg h]
        rcases ih c with h1 | h1
        · exact Or.inl h1
        · exact Or.inr (List.mem_cons_of_mem x h1)

/-- Characterization of the `reduce`: the kept child is in the list, has
the greatest visit count, and every child encountered before it has a
strictly smaller visit count (ties keep the first-encountered). -/
theorem firstMaxChild_spec (cs : List Tree) : ∀ c : Tree,
    ∃ i, ∃ h : i < (c :: cs).length,
      (c :: cs).get ⟨i, h⟩ = firstMaxChild c cs ∧
      (∀ x ∈ c :: cs, x.state.visits ≤ (firstMaxChild c cs).state.visits) ∧
      (∀ x ∈ (c :: cs).take i, x.state.visits < (firstMaxChild c cs).state.visits) := by
  induction cs with
  | nil =>
      intro c
      refine ⟨0, by simp, ?_, ?_, ?_⟩
      · rfl
      · intro x hx
        rw [List.mem_singleton] at hx
        rw [hx, firstMaxChild]
      · intro x hx
        simp at hx
  | cons x xs ih =>
      intro c
      by_cases h : x.state.visits > c.state.visits
      · obtain ⟨i, hi, hget, hmax, hpre⟩ := ih x
        have hr : firstMaxChild c (x :: xs) = firstMaxChild x xs := by
          rw [firstMaxChild, if_pos h]
        refine ⟨i + 1, by simpa using hi, ?_, ?_, ?_⟩
        · rw [hr]
          simpa using hget
        · intro y hy
          rw [hr]
          rcases List.mem_cons.mp hy with h1 | h1
          · have hx : x.state.visits ≤ (firstMaxChild x xs).state.visits :=
              hmax x (List.mem_cons_self x xs)
            rw [h1]
            omega
          · exact hmax y h1
        · intro y hy
          rw [hr]
          rw [List.take_succ_cons] at hy
          rcases List.mem_cons.mp hy with h1 | h1
          · have hx : x.state.visits ≤ (firstMaxChild x xs).state.visits :=
              hmax x (List.mem_cons_self x xs)
            rw [h1]
            omega
          · exact hpre y h1
      · obtain ⟨i, hi, hget, hmax, hpre⟩ := ih c
        have hxc : x.state.visits ≤ c.state.visits := by omega
        have hcr : c.state.visits ≤ (firstMaxChild c xs).state.visits :=
          hmax c (List.mem_cons_self c xs)
        have hr : firstMaxChild c (x :: xs) = firstMaxChild c xs := by
          rw [firstMaxChild, if_neg h]
        cases i with
        | zero =>
            refine ⟨0, by simp, ?_, ?_, ?_⟩
            · rw [hr]
              simpa using hget
            · intro y hy
              rw [hr]
              rcases List.mem_cons.mp hy with h1 | h1
              · rw [h1]; exact hcr
              · rcases List.mem_cons.mp h1 with h2 | h2
                · rw [h2]; omega
                · exact hmax y (List.mem_cons_of_mem c h2)
            · intro y hy
              simp at hy
        | succ j =>
            have hj2 : j + 2 < (c :: x :: xs).length := by
              have h2 := hi
              simp only [List.length_cons] at h2 ⊢
              omega
            refine ⟨j + 2, hj2, ?_, ?_, ?_⟩
            · rw [hr]
              have : ((c :: x :: xs).get ⟨j + 2, hj2⟩ : Tree) =
                  (c :: xs).get ⟨j + 1, hi⟩ := by
                simp [List.get_cons_succ]
              rw [this]
              exact hget
            · intro y hy
              rw [hr]
              rcases List.mem_cons.mp hy with h1 | h1
              · rw [h1]; exact hcr
              · rcases List.mem_cons.mp h1 with h2 | h2
                · rw [h2]; omega
                · exact hmax y (List.mem_cons_of_mem c h2)
            · intro y hy
              rw [hr]
              have hc_pre : c.state.visits < (firstMaxChild c xs).state.visits := by
                have : c ∈ (c :: xs).take (j + 1) := by
                  rw [List.take_succ_cons]
                  exact List.mem_cons_self c _
                exact hpre c this
              rw [List.take_succ_cons] at hy
              rcases List.mem_cons.mp hy with h1 | h1
              · rw [h1]; exact hc_pre
              · rw [List.take_succ_cons] at h1
                rcases List.mem_cons.mp h1 with h2 | h2
                · rw [h2]; omega
                · refine hpre y ?_
                  rw [List.take_succ_cons]
                  exact List.mem_cons_of_mem c h2

theorem pickChild_mem (c : Tree) (cs : List Tree) : pickChild c cs ∈ c :: cs := by
  rw [pickChild_eq_firstMaxChild]
  rcases firstMaxChild_mem c cs with h | h
  · rw [h]; exact List.mem_cons_self c cs
  · exact List.mem_cons_of_mem c h

/-- The descent loop of `InstinctMCTS.getBestNode`: from the current node,
repeatedly move to the most-visited child until a childless node. -/
def bestDescend : Tree → Tree
  | .node s [] => .node s []
  | .node s (c :: cs) => bestDescend (pickChild c cs)
termination_by t => sizeOf t
decreasing_by
  have hmem : pickChild c cs ∈ c :: cs := pickChild_mem c cs
  have h1 : sizeOf (pickChild c cs) < sizeOf (c :: cs) := List.sizeOf_lt_of_mem hmem
  have h2 : sizeOf (Tree.node s (c :: cs)) = 1 + sizeOf s + sizeOf (c :: cs) := by
    simp
  omega

/-- `InstinctMCTS.getBestNode()`: `null` when no root exists, otherwise
the result of the most-visited descent from the root. -/
def getBestNode : Option Tree → Option Tree
  | none => none
  | some t => some (bestDescend t)

theorem bestDescend_leaf (t : Tree) : (bestDescend t).kids = [] := by
  induction t using bestDescend.induct with
  | case1 s => rw [bestDescend]; rfl
  | case2 s c cs ih => rw [bestDescend]; exact ih

/-- A node state with given content, visits and accumulated value, other
fields at the constructor defaults. -/
def mkStat (content : String) (visits : ℕ) (value : ℚ) : NodeState :=
  { newNode content ⟨7/5, 1/5, 7/10⟩ with visits := visits, value := value }

/-- C7: `getBestNode` descends from the root choosing at each step the
child with the strictly greatest visit count, ties broken in favour of the
first-encountered child, stopping at a childless node; for sibling visit
counts A:5, B:2, C:9 it selects C whatever the children's accumulated
values are. -/
theorem C7_getBestNode_most_visited :
    (∀ t : Tree, (bestDescend t).kids = []) ∧
    (∀ (s : NodeState) (c : Tree) (cs : List Tree),
      bestDescend (.node s (c :: cs)) = bestDescend (pickChild c cs)) ∧
    (∀ (c : Tree) (cs : List Tree),
      ∃ i, ∃ h : i < (c :: cs).length,
        (c :: cs).get ⟨i, h⟩ = pickChild c cs ∧
        (∀ x ∈ c :: cs, x.state.visits ≤ (pickChild c cs).state.visits) ∧
        (∀ x ∈ (c :: cs).take i, x.state.visits < (pickChild c cs).state.visits)) ∧
    (∀ vA vB vC : ℚ,
      getBestNode (some (.node (mkStat "root" 16 0)
        [.node (mkStat "A" 5 vA) [], .node (mkStat "B" 2 vB) [],
         .node (mkStat "C" 9 vC) []])) =
        some (.node (mkStat "C" 9 vC) [])) := by
  refine ⟨bestDescend_leaf, ?_, ?_, ?_⟩
  · intro s c cs
    rw [bestDescend]
  · intro c cs
    obtain ⟨i, h, hget, hmax, hpre⟩ := firstMaxChild_spec cs c
    rw [← pickChild_eq_firstMaxChild] at hget hmax hpre
    exact ⟨i, h, hget, hmax, hpre⟩
  · intro vA vB vC
    show some _ = some _
    congr 1
    rw [bestDescend, pickChild_eq_firstMaxChild]
    rw [show firstMaxChild (Tree.node (mkStat "A" 5 vA) [])
        [Tree.node (mkStat "B" 2 vB) [], Tree.node (mkStat "C" 9 vC) []] =
        Tree.node (mkStat "C" 9 vC) [] from by
      rw [firstMaxChild, if_neg (by norm_num [Tree.state, mkStat, newNode]),
        firstMaxChild, if_pos (by norm_num [Tree.state, mkStat, newNode]), firstMaxChild]]
    rw [bestDescend]

/-- C10: when the engine has no root, `getBestNode()` returns `null`; it
is total, returning a node exactly when the engine is initialized. -/
theorem C10_getBestNode_uninitialized :
    getBestNode none = none ∧ ∀ e : Option Tree, (getBestNode e).isSome = e.isSome := by
  refine ⟨rfl, ?_⟩
  intro e
  cases e <;> rfl

/-! ## select -/

/-- `children.map(child => child.emotionalState)`. -/
def childWeights (cs : List Tree) : List ℚ := cs.map (fun c => c.state.emotionalState)

/-- `weights.reduce((sum, weight) => sum + weight, 0.001)`. -/
def totalWeight (ws : List ℚ) : ℚ := ws.foldl (· + ·) (1/1000)

/-- The inverse-CDF loop of the stochastic instinct branch: walk the
children accumulating `child.emotionalState / total` and return the first
index (with its child) whose cumulative weight reaches the draw `r`;
`none` when the loop exhausts the children without selecting (the draw
exceeds the covered mass). -/
def instinctPick (r total : ℚ) : List Tree → ℚ → ℕ → Option (ℕ × Tree)
  | [], _, _ => none
  | c :: rest, cum, i =>
      let cum2 := cum + c.state.emotionalState / total
      if r ≤ cum2 then some (i, c) else instinctPick r total rest cum2 (i + 1)

/-- The body of the analytic `reduce`: scan the children keeping the one
with strictly greater key, together with its index. -/
def argmaxFrom (f : Tree → ℚ) : ℕ × Tree → ℕ → List Tree → ℕ × Tree
  | best, _, [] => best
  | best, i, x :: xs => argmaxFrom f (if f x > f best.2 then (i, x) else best) (i + 1) xs

/-- `children.reduce((best, child) => child.f > best.f ? child : best,
children[0])`, with the chosen child's index. -/
def argmaxChild (f : Tree → ℚ) (c : Tree) (cs : List Tree) : ℕ × Tree :=
  argmaxFrom f (0, c) 0 (c :: cs)

/-- The selection score the analytic branch applies to a child of the
current node (`child.uctValue()` with the current node as parent). -/
def uctOf (sqrtF logF : ℚ → ℚ) (s : NodeState) (child : Tree) : ℚ :=
  uctValue sqrtF logF (some s.visits) child.state

/-- `InstinctMCTS.select()`: descend from the current node until a node
with no children. Each `while` iteration consumes one draw pair
`draws k = (r1, r2)`: with `r1 < instinctRatio` the stochastic instinct
branch runs (`r2` is the inverse-CDF draw; when no child is selected the
loop repeats at the same node with fresh draws), otherwise the analytic
branch takes the reduce-argmax of `uctValue`. `fuel` bounds the number of
loop iterations; `none` means the loop has not reached a leaf within
`fuel` iterations. -/
def selectGo (sqrtF logF : ℚ → ℚ) (ir : ℚ) (draws : ℕ → ℚ × ℚ) :
    ℕ → ℕ → Tree → Option (List ℕ × Tree)
  | 0, _, _ => none
  | _ + 1, _, .node s [] => some ([], .node s [])
  | fuel + 1, k, .node s (c :: cs) =>
      if (draws k).1 < ir then
        (instinctPick (draws k).2 (totalWeight (childWeights (c :: cs))) (c :: cs) 0 0).elim
          (selectGo sqrtF logF ir draws fuel (k + 1) (.node s (c :: cs)))
          (fun ic =>
            (selectGo sqrtF logF ir draws fuel (k + 1) ic.2).map
              (fun pr => (ic.1 :: pr.1, pr.2)))
      else
        let ic := argmaxChild (uctOf sqrtF logF s) c cs
        (selectGo sqrtF logF ir draws fuel (k + 1) ic.2).map
          (fun pr => (ic.1 :: pr.1, pr.2))

/-- Follow a child-index path down a tree. -/
def followPath : List ℕ → Tree → Option Tree
  | [], t => some t
  | i :: p, .node _ cs => (cs.get? i).bind (followPath p)

theorem argmaxFrom_spec (f : Tree → ℚ) (xs : List Tree) : ∀ (best : ℕ × Tree) (i : ℕ),
    (argmaxFrom f best i xs = best ∨
      ∃ j x, argmaxFrom f best i xs = (i + j, x) ∧ xs.get? j = some x) ∧
    f best.2 ≤ f (argmaxFrom f best i xs).2 ∧
    ∀ x ∈ xs, f x ≤ f (argmaxFrom f best i xs).2 := by
  induction xs with
  | nil =>
      intro best i
      exact ⟨Or.inl rfl, le_refl _, by simp⟩
  | cons x xs ih =>
      intro best i
      rw [argmaxFrom]
      by_cases h : f x > f best.2
      · rw [if_pos h]
        obtain ⟨hpos, hge, hmax⟩ := ih (i, x) (i + 1)
        refine ⟨?_, ?_, ?_⟩
        · rcases hpos with h1 | ⟨j, y, hj, hy⟩
          · right
            exact ⟨0, x, by rw [h1]; simp, by simp⟩
          · right
            refine ⟨j + 1, y, ?_, by simpa using hy⟩
            rw [hj]
            congr 1
            omega
        · exact le_trans (le_of_lt h) hge
        · intro y hy
          rcases List.mem_cons.mp hy with h1 | h1
          · rw [h1]; exact hge
          · exact hmax y h1
      · rw [if_neg h]
        obtain ⟨hpos, hge, hmax⟩ := ih best (i + 1)
        refine ⟨?_, hge, ?_⟩
        · rcases hpos with h1 | ⟨j, y, hj, hy⟩
          · exact Or.inl h1
          · right
            refine ⟨j + 1, y, ?_, by simpa using hy⟩
            rw [hj]
            congr 1
            omega
        · intro y hy
          rcases List.mem_cons.mp hy with h1 | h1
          · rw [h1]
            exact le_trans (le_of_not_lt h) hge
          · exact hmax y h1

theorem argmaxChild_get? (f : Tree → ℚ) (c : Tree) (cs : List Tree) :
    (c :: cs).get? (argmaxChild f c cs).1 = some (argmaxChild f c cs).2 := by
  obtain ⟨hpos, -, -⟩ := argmaxFrom_spec f (c :: cs) (0, c) 0
  rcases hpos with h1 | ⟨j, x, hj, hx⟩
  · rw [argmaxChild, h1]
    rfl
  · rw [argmaxChild, hj]
    simpa using hx

theorem argmaxChild_max (f : Tree → ℚ) (c : Tree) (cs : List Tree) :
    ∀ x ∈ c :: cs, f x ≤ f (argmaxChild f c cs).2 :=
  (argmaxFrom_spec f (c :: cs) (0, c) 0).2.2

theorem instinctPick_get? (r total : ℚ) (xs : List Tree) :
    ∀ (cum : ℚ) (i j : ℕ) (x : Tree),
      instinctPick r total xs cum i = some (j, x) →
      ∃ j', j = i + j' ∧ xs.get? j' = some x := by
  induction xs with
  | nil =>
      intro cum i j x h
      exact absurd h (by simp [instinctPick])
  | cons c rest ih =>
      intro cum i j x h
      rw [instinctPick] at h
      by_cases hc : r ≤ cum + c.state.emotionalState / total
      · rw [if_pos hc] at h
        injection h with h2
        injection h2 with ha hb
        exact ⟨0, by omega, by rw [← hb]; rfl⟩
      · rw [if_neg hc] at h
        obtain ⟨j', hj, hx⟩ := ih _ (i + 1) j x h
        exact ⟨j' + 1, by omega, by simpa using hx⟩

theorem selectGo_sound (f g : ℚ → ℚ) (ir : ℚ) (draws : ℕ → ℚ × ℚ) :
    ∀ (fuel k : ℕ) (t : Tree) (pr : List ℕ × Tree),
      selectGo f g ir draws fuel k t = some pr →
      followPath pr.1 t = some pr.2 ∧ pr.2.kids = [] := by
  intro fuel
  induction fuel with
  | zero =>
      intro k t pr h
      exact absurd h (by simp [selectGo])
  | succ n ih =>
      intro k t pr h
      cases t with
      | node s cs =>
          cases cs with
          | nil =>
              rw [selectGo] at h
              injection h with h2
              rw [← h2]
              exact ⟨rfl, rfl⟩
          | cons c cs =>
              rw [selectGo] at h
              by_cases hc : (draws k).1 < ir
              · rw [if_pos hc] at h
                cases hpick : instinctPick (draws k).2
                    (totalWeight (childWeights (c :: cs))) (c :: cs) 0 0 with
                | some ic =>
                    rw [hpick] at h
                    simp only [Option.elim] at h
                    cases hin : selectGo f g ir draws n (k + 1) ic.2 with
                    | none =>
                        rw [hin] at h
                        simp at h
                    | some pr' =>
                        rw [hin] at h
                        simp only [Option.map_some'] at h
                        obtain ⟨hfollow, hleaf⟩ := ih (k + 1) ic.2 pr' hin
                        obtain ⟨j', hj, hx⟩ := instinctPick_get? (draws k).2
                          (totalWeight (childWeights (c :: cs))) (c :: cs) 0 0 ic.1 ic.2
                          (by rw [hpick])
                        injection h with h2
                        subst h2
                        refine ⟨?_, hleaf⟩
                        show ((c :: cs).get? ic.1).bind (followPath pr'.1) = some pr'.2
                        rw [show ic.1 = j' from by omega, hx]
                        exact hfollow
                | none =>
                    rw [hpick] at h
                    simp only [Option.elim] at h
                    exact ih (k + 1) _ pr h
              · rw [if_neg hc] at h
                simp only [] at h
                cases hin : selectGo f g ir draws n (k + 1)
                    (argmaxChild (uctOf f g s) c cs).2 with
                | none =>
                    rw [hin] at h
                    simp at h
                | some pr' =>
                    rw [hin] at h
                    simp only [Option.map_some'] at h
                    obtain ⟨hfollow, hleaf⟩ := ih (k + 1) _ pr' hin
                    injection h with h2
                    subst h2
                    refine ⟨?_, hleaf⟩
                    show ((c :: cs).get? (argmaxChild (uctOf f g s) c cs).1).bind
                      (followPath pr'.1) = some pr'.2
                    rw [argmaxChild_get?]
                    exact hfollow

theorem foldl_add_eq (ws : List ℚ) : ∀ a : ℚ, ws.foldl (· + ·) a = a + ws.sum := by
  induction ws with
  | nil => intro a; simp
  | cons w ws ih =>
      intro a
      rw [List.foldl_cons, ih, List.sum_cons]
      ring

theorem totalWeight_eq (ws : List ℚ) : totalWeight ws = ws.sum + 1/1000 := by
  rw [totalWeight, foldl_add_eq]
  ring

theorem map_div_sum (ws : List ℚ) (t : ℚ) :
    (ws.map (fun w => w / t)).sum = ws.sum / t := by
  induction ws with
  | nil => simp
  | cons w ws ih =>
      rw [List.map_cons, List.sum_cons, List.sum_cons, ih, add_div]

/-! ## The [0,1] metric invariant -/

/-- The four instinct metrics of a node state lie in `[0,1]`. -/
def MetricsOK (s : NodeState) : Prop :=
  0 ≤ s.emotionalState ∧ s.emotionalState ≤ 1 ∧
  0 ≤ s.instinctWeight ∧ s.instinctWeight ≤ 1 ∧
  0 ≤ s.confidence ∧ s.confidence ≤ 1 ∧
  0 ≤ s.perseverance ∧ s.perseverance ≤ 1

mutual
/-- Every node of the tree has its metrics within `[0,1]`. -/
def TreeOK : Tree → Prop
  | .node s cs => MetricsOK s ∧ ListOK cs
/-- Every node of every tree in the list has its metrics within `[0,1]`. -/
def ListOK : List Tree → Prop
  | [] => True
  | c :: cs => TreeOK c ∧ ListOK cs
end

theorem ListOK_mem : ∀ (cs : List Tree), ListOK cs → ∀ c ∈ cs, TreeOK c := by
  intro cs
  induction cs with
  | nil => intro _ c hc; simp at hc
  | cons x xs ih =>
      intro h c hc
      rw [ListOK] at h
      rcases List.mem_cons.mp hc with h1 | h1
      · rw [h1]; exact h.1
      · exact ih h.2 c h1

theorem ht_le_htList : ∀ (cs : List Tree) (c : Tree), c ∈ cs → c.ht ≤ htList cs := by
  intro cs
  induction cs with
  | nil => intro c hc; simp at hc
  | cons x xs ih =>
      intro c hc
      rw [htList]
      rcases List.mem_cons.mp hc with h1 | h1
      · rw [h1]; exact le_max_left _ _
      · exact le_trans (ih c h1) (le_max_right _ _)

theorem ht_pos (t : Tree) : 1 ≤ t.ht := by
  cases t with
  | node s cs => rw [Tree.ht]; omega

theorem childWeights_nonneg (cs : List Tree) (h : ListOK cs) :
    ∀ w ∈ childWeights cs, 0 ≤ w := by
  intro w hw
  rw [childWeights, List.mem_map] at hw
  obtain ⟨c, hc, hcw⟩ := hw
  have := (ListOK_mem cs h c hc)
  cases c with
  | node s k =>
      rw [TreeOK] at this
      rw [← hcw]
      exact this.1.1

theorem totalWeight_pos (ws : List ℚ) (h : ∀ w ∈ ws, 0 ≤ w) :
    0 < totalWeight ws := by
  rw [totalWeight_eq]
  have : 0 ≤ ws.sum := List.sum_nonneg h
  linarith

theorem instinctPick_covered (r total : ℚ) :
    ∀ (xs : List Tree) (cum : ℚ) (i : ℕ),
      xs ≠ [] →
      r ≤ cum + (childWeights xs).sum / total →
      ∃ ic, instinctPick r total xs cum i = some ic := by
  intro xs
  induction xs with
  | nil => intro cum i hne; exact absurd rfl hne
  | cons c rest ih =>
      intro cum i _ hr
      rw [instinctPick]
      by_cases hc : r ≤ cum + c.state.emotionalState / total
      · rw [if_pos hc]
        exact ⟨(i, c), rfl⟩
      · rw [if_neg hc]
        cases rest with
        | nil =>
            exfalso
            apply hc
            have : (childWeights [c]).sum = c.state.emotionalState := by
              simp [childWeights]
            rw [this] at hr
            exact hr
        | cons d ds =>
            apply ih _ (i + 1) (by simp)
            have hsum : (childWeights (c :: d :: ds)).sum =
                c.state.emotionalState + (childWeights (d :: ds)).sum := by
              simp [childWeights]
            rw [hsum, add_div] at hr
            linarith

theorem selectGo_term (f g : ℚ → ℚ) (ir : ℚ) (draws : ℕ → ℚ × ℚ)
    (hd : ∀ j, (draws j).2 = 0) :
    ∀ (fuel k : ℕ) (t : Tree), TreeOK t → t.ht ≤ fuel →
      ∃ pr, selectGo f g ir draws fuel k t = some pr := by
  intro fuel
  induction fuel with
  | zero =>
      intro k t _ hht
      have := ht_pos t
      omega
  | succ n ih =>
      intro k t hok hht
      cases t with
      | node s cs =>
          cases cs with
          | nil => exact ⟨([], .node s []), by rw [selectGo]⟩
          | cons c cs =>
              rw [TreeOK] at hok
              have hlist : ListOK (c :: cs) := hok.2
              have hts : c.ht ≤ n ∧ ∀ x ∈ cs, x.ht ≤ n := by
                rw [Tree.ht] at hht
                have hc := ht_le_htList (c :: cs) c (List.mem_cons_self c cs)
                constructor
                · omega
                · intro x hx
                  have := ht_le_htList (c :: cs) x (List.mem_cons_of_mem c hx)
                  omega
              rw [selectGo]
              by_cases hc : (draws k).1 < ir
              · rw [if_pos hc]
                have hw0 : 0 ≤ c.state.emotionalState := by
                  have := ListOK_mem (c :: cs) hlist c (List.mem_cons_self c cs)
                  cases c with
                  | node sc kc =>
                      rw [TreeOK] at this
                      exact this.1.1
                have htot : 0 < totalWeight (childWeights (c :: cs)) :=
                  totalWeight_pos _ (childWeights_nonneg _ hlist)
                have hpick : instinctPick (draws k).2
                    (totalWeight (childWeights (c :: cs))) (c :: cs) 0 0 = some (0, c) := by
                  rw [instinctPick, if_pos]
                  rw [hd k]
                  have : 0 ≤ c.state.emotionalState / totalWeight (childWeights (c :: cs)) :=
                    div_nonneg hw0 (le_of_lt htot)
                  linarith
                rw [hpick]
                simp only [Option.elim]
                obtain ⟨pr', hpr'⟩ := ih (k + 1) c
                  (ListOK_mem (c :: cs) hlist c (List.mem_cons_self c cs)) hts.1
                exact ⟨(0 :: pr'.1, pr'.2), by rw [hpr']; rfl⟩
              · rw [if_neg hc]
                have hmem : (argmaxChild (uctOf f g s) c cs).2 ∈ c :: cs :=
                  List.get?_mem (argmaxChild_get? (uctOf f g s) c cs)
                have hokc : TreeOK (argmaxChild (uctOf f g s) c cs).2 :=
                  ListOK_mem (c :: cs) hlist _ hmem
                have hhtc : (argmaxChild (uctOf f g s) c cs).2.ht ≤ n := by
                  rcases List.mem_cons.mp hmem with h1 | h1
                  · rw [h1]; exact hts.1
                  · exact hts.2 _ h1
                obtain ⟨pr', hpr'⟩ := ih (k + 1) _ hokc hhtc
                refine ⟨((argmaxChild (uctOf f g s) c cs).1 :: pr'.1, pr'.2), ?_⟩
                show Option.map (fun pr => ((argmaxChild (uctOf f g s) c cs).1 :: pr.1, pr.2))
                    (selectGo f g ir draws n (k + 1) (argmaxChild (uctOf f g s) c cs).2) = _
                rw [hpr']
                rfl

/-- The engine's default coefficients (explorationWeight 1.4,
confidenceBias 0.2, perseveranceFactor 0.7). -/
def baseCf : Coeffs := ⟨7/5, 1/5, 7/10⟩

/-- A child whose emotionalState has been driven to 0 (reachable, since
backpropagation clamps at 0). -/
def zeroEmoChild : Tree :=
  .node { newNode "child" baseCf with emotionalState := 0 } []

/-- A root with a single zero-emotionalState child. -/
def stuckTree : Tree := .node (newNode "root" baseCf) [zeroEmoChild]

/-- A draw sequence that always returns (0.5, 0.5). -/
def halfDraws : ℕ → ℚ × ℚ := fun _ => (1/2, 1/2)

theorem selectGo_stuckTree (f g : ℚ → ℚ) :
    ∀ (fuel k : ℕ), selectGo f g 1 halfDraws fuel k stuckTree = none := by
  intro fuel
  induction fuel with
  | zero => intro k; rfl
  | succ n ih =>
      intro k
      show selectGo f g 1 halfDraws (n + 1) k
        (.node (newNode "root" baseCf) [zeroEmoChild]) = none
      rw [selectGo]
      rw [if_pos (by norm_num [halfDraws])]
      have hpick : instinctPick (halfDraws k).2
          (totalWeight (childWeights [zeroEmoChild])) [zeroEmoChild] 0 0 = none := by
        rw [instinctPick, if_neg, instinctPick]
        show ¬ ((1:ℚ)/2 ≤ 0 + zeroEmoChild.state.emotionalState /
          totalWeight (childWeights [zeroEmoChild]))
        rw [show zeroEmoChild.state.emotionalState = 0 from rfl]
        norm_num
      rw [hpick]
      simp only [Option.elim]
      exact ih (k + 1)

/-- C4, counterexample: the claim fails on the code. With instinctRatio 1,
a single zero-emotionalState child and every draw equal to 0.5, `select()`
never terminates (no iteration bound ever reaches a leaf: the inverse-CDF
draw 0.5 exceeds the covered mass 0/(0+0.001), so the loop repeats at the
same node forever); moreover the normalized child weights of a node with
one default (0.5) child sum to 500/501, not 1. -/
theorem C4_select_cex :
    (¬ ∃ fuel pr, selectGo id id 1 halfDraws fuel 0 stuckTree = some pr) ∧
    ((childWeights [Tree.node (newNode "c" baseCf) []]).map
      (fun w => w / totalWeight (childWeights [Tree.node (newNode "c" baseCf) []]))).sum
      ≠ 1 := by
  constructor
  · rintro ⟨fuel, pr, h⟩
    rw [selectGo_stuckTree id id fuel 0] at h
    exact Option.noConfusion h
  · rw [map_div_sum, totalWeight_eq]
    norm_num [childWeights, newNode, Tree.state]

/-- C4, amended: the child weights are normalized by `(sum + 0.001)`, so
they sum to `S/(S + 0.001)` — strictly less than 1 for nonnegative
weights, not 1; an instinct iteration selects a child (descending exactly
one level) whenever its draw is at most that covered mass; any select call
that returns does return the first childless node reached, along the path
it descended; and select terminates (within `height` iterations) for every
draw sequence whose inverse-CDF draws stay within the covered mass — in
particular when every second draw is 0 — on any tree satisfying the [0,1]
metric invariant. -/
theorem C4_select_amended :
    (∀ ws : List ℚ, totalWeight ws = ws.sum + 1/1000 ∧
      (ws.map (fun w => w / totalWeight ws)).sum = ws.sum / (ws.sum + 1/1000)) ∧
    (∀ ws : List ℚ, (∀ w ∈ ws, 0 ≤ w) →
      (ws.map (fun w => w / totalWeight ws)).sum < 1) ∧
    (∀ (r total : ℚ) (c : Tree) (cs : List Tree),
      r ≤ (childWeights (c :: cs)).sum / total →
      ∃ ic, instinctPick r total (c :: cs) 0 0 = some ic) ∧
    (∀ (f g : ℚ → ℚ) (ir : ℚ) (draws : ℕ → ℚ × ℚ) (fuel k : ℕ) (t : Tree)
      (pr : List ℕ × Tree),
      selectGo f g ir draws fuel k t = some pr →
      followPath pr.1 t = some pr.2 ∧ pr.2.kids = []) ∧
    (∀ (f g : ℚ → ℚ) (ir : ℚ) (draws : ℕ → ℚ × ℚ) (k : ℕ) (t : Tree),
      (∀ j, (draws j).2 = 0) → TreeOK t →
      ∃ pr, selectGo f g ir draws t.ht k t = some pr) := by
  refine ⟨?_, ?_, ?_, ?_, ?_⟩
  · intro ws
    exact ⟨totalWeight_eq ws, by rw [map_div_sum, totalWeight_eq]⟩
  · intro ws hws
    rw [map_div_sum, totalWeight_eq]
    have hs : 0 ≤ ws.sum := List.sum_nonneg hws
    rw [div_lt_one (by linarith)]
    linarith
  · intro r total c cs hr
    exact instinctPick_covered r total (c :: cs) 0 0 (by simp) (by rw [zero_add]; exact hr)
  · intro f g ir draws fuel k t pr h
    exact selectGo_sound f g ir draws fuel k t pr h
  · intro f g ir draws k t hd hok
    exact selectGo_term f g ir draws hd t.ht k t hok (le_refl _)

/-- A draw sequence that always returns (0, 0). -/
def zeroDraws : ℕ → ℚ × ℚ := fun _ => (0, 0)

/-- Witness for the amended C4 at a concrete tree: with all draws 0,
select on `stuckTree` (height 2) returns a leaf. -/
theorem C4_select_amended_witness :
    (∀ j, (zeroDraws j).2 = 0) ∧ TreeOK stuckTree ∧
    ∃ pr, selectGo id id (3/5) zeroDraws stuckTree.ht 0 stuckTree = some pr := by
  have h1 : ∀ j, (zeroDraws j).2 = 0 := fun j => rfl
  have h2 : TreeOK stuckTree := by
    rw [stuckTree, TreeOK, ListOK, zeroEmoChild, TreeOK, ListOK]
    refine ⟨?_, ⟨?_, trivial⟩, trivial⟩ <;> norm_num [MetricsOK, newNode, baseCf]
  exact ⟨h1, h2, C4_select_amended.2.2.2.2 id id (3/5) zeroDraws 0 stuckTree h1 h2⟩

/-! ## select with the instinct ratio at its extremes -/

mutual
/-- Replace every node's visits and value (the UCT statistics) by
arbitrary functions of its state, leaving the emotional metrics, contents
and structure unchanged. -/
def tweakStats (fv : NodeState → ℕ) (fq : NodeState → ℚ) : Tree → Tree
  | .node s cs => .node { s with visits := fv s, value := fq s } (tweakList fv fq cs)
/-- `tweakStats` mapped over a list of trees. -/
def tweakList (fv : NodeState → ℕ) (fq : NodeState → ℚ) : List Tree → List Tree
  | [] => []
  | c :: cs => tweakStats fv fq c :: tweakList fv fq cs
end

theorem tweakStats_emo (fv : NodeState → ℕ) (fq : NodeState → ℚ) (t : Tree) :
    (tweakStats fv fq t).state.emotionalState = t.state.emotionalState := by
  cases t with
  | node s cs => rfl

theorem childWeights_tweakList (fv : NodeState → ℕ) (fq : NodeState → ℚ) :
    ∀ cs : List Tree, childWeights (tweakList fv fq cs) = childWeights cs := by
  intro cs
  induction cs with
  | nil => rfl
  | cons c cs ih =>
      rw [tweakList]
      show (tweakStats fv fq c).state.emotionalState :: childWeights (tweakList fv fq cs) =
        c.state.emotionalState :: childWeights cs
      rw [tweakStats_emo, ih]

theorem instinctPick_tweakList (r total : ℚ) (fv : NodeState → ℕ) (fq : NodeState → ℚ) :
    ∀ (cs : List Tree) (cum : ℚ) (i : ℕ),
      instinctPick r total (tweakList fv fq cs) cum i =
        (instinctPick r total cs cum i).map (fun ic => (ic.1, tweakStats fv fq ic.2)) := by
  intro cs
  induction cs with
  | nil => intro cum i; rfl
  | cons c cs ih =>
      intro cum i
      rw [tweakList, instinctPick, instinctPick, tweakStats_emo]
      by_cases hc : r ≤ cum + c.state.emotionalState / total
      · rw [if_pos hc, if_pos hc]
        rfl
      · rw [if_neg hc, if_neg hc]
        exact ih _ (i + 1)

theorem selectGo_uct_indep (f1 g1 f2 g2 : ℚ → ℚ) (draws : ℕ → ℚ × ℚ)
    (hd : ∀ j, (draws j).1 < 1) :
    ∀ (fuel k : ℕ) (t : Tree),
      selectGo f1 g1 1 draws fuel k t = selectGo f2 g2 1 draws fuel k t := by
  intro fuel
  induction fuel with
  | zero => intro k t; rfl
  | succ n ih =>
      intro k t
      cases t with
      | node s cs =>
          cases cs with
          | nil => rfl
          | cons c cs =>
              rw [selectGo, selectGo, if_pos (hd k), if_pos (hd k)]
              cases hpick : instinctPick (draws k).2
                  (totalWeight (childWeights (c :: cs))) (c :: cs) 0 0 with
              | some ic =>
                  simp only [Option.elim]
                  rw [ih (k + 1) ic.2]
              | none =>
                  simp only [Option.elim]
                  exact ih (k + 1) (.node s (c :: cs))

theorem selectGo_stats_indep (f g : ℚ → ℚ) (draws : ℕ → ℚ × ℚ)
    (fv : NodeState → ℕ) (fq : NodeState → ℚ) (hd : ∀ j, (draws j).1 < 1) :
    ∀ (fuel k : ℕ) (t : Tree),
      (selectGo f g 1 draws fuel k (tweakStats fv fq t)).map Prod.fst =
        (selectGo f g 1 draws fuel k t).map Prod.fst := by
  intro fuel
  induction fuel with
  | zero => intro k t; rfl
  | succ n ih =>
      intro k t
      cases t with
      | node s cs =>
          cases cs with
          | nil => rfl
          | cons c cs =>
              have hsT : tweakStats fv fq (.node s (c :: cs)) =
                  .node { s with visits := fv s, value := fq s }
                    (tweakStats fv fq c :: tweakList fv fq cs) := rfl
              rw [hsT, selectGo, selectGo, if_pos (hd k), if_pos (hd k)]
              have hweights : childWeights (tweakStats fv fq c :: tweakList fv fq cs) =
                  childWeights (c :: cs) := by
                have := childWeights_tweakList fv fq (c :: cs)
                rw [tweakList] at this
                exact this
              have hpickT : instinctPick (draws k).2
                  (totalWeight (childWeights (c :: cs)))
                  (tweakStats fv fq c :: tweakList fv fq cs) 0 0 =
                  (instinctPick (draws k).2 (totalWeight (childWeights (c :: cs)))
                    (c :: cs) 0 0).map (fun ic => (ic.1, tweakStats fv fq ic.2)) := by
                have := instinctPick_tweakList (draws k).2
                  (totalWeight (childWeights (c :: cs))) fv fq (c :: cs) 0 0
                rw [tweakList] at this
                exact this
              rw [hweights, hpickT]
              cases hpick : instinctPick (draws k).2
                  (totalWeight (childWeights (c :: cs))) (c :: cs) 0 0 with
              | some ic =>
                  simp only [Option.map_some', Option.elim]
                  rw [Option.map_map, Option.map_map]
                  have hcomp1 : (Prod.fst ∘ fun pr : List ℕ × Tree => (ic.1 :: pr.1, pr.2)) =
                      (fun pr : List ℕ × Tree => ic.1 :: pr.1) := rfl
                  have hcomp2 : (fun pr : List ℕ × Tree => ic.1 :: pr.1) =
                      ((ic.1 :: ·) ∘ Prod.fst) := rfl
                  rw [hcomp1, hcomp2, ← Option.map_map, ← Option.map_map]
                  rw [ih (k + 1) ic.2]
              | none =>
                  simp only [Option.map_none', Option.elim]
                  rw [← hsT]
                  exact ih (k + 1) (.node s (c :: cs))

/-- C9: with instinctRatio 0 (and draws in [0,1)), every `select` step
takes the reduce-argmax child by `uctValue` — the greatest selection score,
with the stochastic branch never entered; with instinctRatio 1, `select`
never invokes `uctValue` (the result is the same for any two sqrt/log
oracles, hence any two selection-score functions), and trees differing
only in visit counts and accumulated values select the same node (path). -/
theorem C9_instinct_extremes :
    (∀ (f g : ℚ → ℚ) (draws : ℕ → ℚ × ℚ) (fuel k : ℕ)
      (s : NodeState) (c : Tree) (cs : List Tree),
      0 ≤ (draws k).1 →
      selectGo f g 0 draws (fuel + 1) k (.node s (c :: cs)) =
        (selectGo f g 0 draws fuel (k + 1) (argmaxChild (uctOf f g s) c cs).2).map
          (fun pr => ((argmaxChild (uctOf f g s) c cs).1 :: pr.1, pr.2))) ∧
    (∀ (f g : ℚ → ℚ) (s : NodeState) (c : Tree) (cs : List Tree),
      ∀ x ∈ c :: cs, uctOf f g s x ≤ uctOf f g s (argmaxChild (uctOf f g s) c cs).2) ∧
    (∀ (f1 g1 f2 g2 : ℚ → ℚ) (draws : ℕ → ℚ × ℚ) (fuel k : ℕ) (t : Tree),
      (∀ j, (draws j).1 < 1) →
      selectGo f1 g1 1 draws fuel k t = selectGo f2 g2 1 draws fuel k t) ∧
    (∀ (f g : ℚ → ℚ) (draws : ℕ → ℚ × ℚ) (fv : NodeState → ℕ) (fq : NodeState → ℚ)
      (fuel k : ℕ) (t : Tree),
      (∀ j, (draws j).1 < 1) →
      (selectGo f g 1 draws fuel k (tweakStats fv fq t)).map Prod.fst =
        (selectGo f g 1 draws fuel k t).map Prod.fst) := by
  refine ⟨?_, ?_, ?_, ?_⟩
  · intro f g draws fuel k s c cs h
    rw [selectGo, if_neg (not_lt.mpr h)]
  · intro f g s c cs
    exact argmaxChild_max (uctOf f g s) c cs
  · intro f1 g1 f2 g2 draws fuel k t h
    exact selectGo_uct_indep f1 g1 f2 g2 draws h fuel k t
  · intro f g draws fv fq fuel k t h
    exact selectGo_stats_indep f g draws fv fq h fuel k t

/-- Witness for C9 at concrete inputs: the pure-UCT step on a one-child
node, and oracle/statistics independence at instinctRatio 1 with constant
draws (0,0) on `stuckTree`. -/
theorem C9_instinct_extremes_witness :
    (selectGo id id 0 zeroDraws 2 0 (.node (newNode "root" baseCf) [zeroEmoChild]) =
      (selectGo id id 0 zeroDraws 1 1
        (argmaxChild (uctOf id id (newNode "root" baseCf)) zeroEmoChild []).2).map
        (fun pr =>
          ((argmaxChild (uctOf id id (newNode "root" baseCf)) zeroEmoChild []).1 :: pr.1,
            pr.2))) ∧
    (selectGo id (fun _ => 3) 1 zeroDraws 2 0 stuckTree =
      selectGo (fun _ => 5) id 1 zeroDraws 2 0 stuckTree) ∧
    ((selectGo id id 1 zeroDraws 2 0
        (tweakStats (fun s => s.visits + 9) (fun s => s.value + 4) stuckTree)).map
        Prod.fst =
      (selectGo id id 1 zeroDraws 2 0 stuckTree).map Prod.fst) := by
  refine ⟨?_, ?_, ?_⟩
  · exact C9_instinct_extremes.1 id id zeroDraws 1 0 (newNode "root" baseCf)
      zeroEmoChild [] (by norm_num [zeroDraws])
  · exact C9_instinct_extremes.2.2.1 id (fun _ => 3) (fun _ => 5) id zeroDraws 2 0
      stuckTree (by intro j; norm_num [zeroDraws])
  · exact C9_instinct_extremes.2.2.2 id id zeroDraws (fun s => s.visits + 9)
      (fun s => s.value + 4) 2 0 stuckTree (by intro j; norm_num [zeroDraws])

/-! ## The write paths of the metrics, and reachable engine trees -/

/-- A collaborator content analysis (`analyzeContent` result), four 1-10
scores. -/
structure Analysis where
  confidence : ℚ
  perseverance : ℚ
  instinctVsAnalysis : ℚ
  emotionalState : ℚ

/-- The collaborator contract of the spec: each analysis score lies in the
1-10 scale (we only need 0 ≤ score ≤ 10). -/
def AnalysisOK (a : Analysis) : Prop :=
  0 ≤ a.confidence ∧ a.confidence ≤ 10 ∧
  0 ≤ a.perseverance ∧ a.perseverance ≤ 10 ∧
  0 ≤ a.instinctVsAnalysis ∧ a.instinctVsAnalysis ≤ 10 ∧
  0 ≤ a.emotionalState ∧ a.emotionalState ≤ 10

/-- Case analysis on an `Except` value (error handler first). -/
def exceptElim {e a b : Type} (x : Except e a) (fe : e → b) (fo : a → b) : b :=
  match x with
  | .error err => fe err
  | .ok v => fo v

theorem exceptElim_error {e a b : Type} (err : e) (fe : e → b) (fo : a → b) :
    exceptElim (Except.error err) fe fo = fe err := rfl

theorem exceptElim_ok {e a b : Type} (v : a) (fe : e → b) (fo : a → b) :
    exceptElim (Except.ok v) fe fo = fo v := rfl

/-- `Node.addChild(content)`: a fresh leaf child inheriting the parent's
coefficients. -/
def addChildState (s : NodeState) (content : String) : Tree :=
  .node (newNode content ⟨s.explorationWeight, s.confidenceBias, s.perseveranceFactor⟩) []

/-- `addChild` applied to the node at a path: appends the fresh child to
its children. -/
def addChildAt (content : String) : List ℕ → Tree → Tree :=
  modifyAt (fun t =>
    match t with
    | .node s cs => .node s (cs ++ [addChildState s content]))

/-- The partial-update argument of `Node.updateParameters`. -/
structure ParamUpd where
  emotionalState : Option ℚ
  instinctWeight : Option ℚ
  confidence : Option ℚ
  perseverance : Option ℚ
  explorationWeight : Option ℚ
  confidenceBias : Option ℚ
  perseveranceFactor : Option ℚ

/-- `Node.updateParameters(params)`: each supplied metric is clamped to
[0,1]; supplied coefficients are taken as-is. -/
def applyUpd (ps : ParamUpd) (s : NodeState) : NodeState :=
  { s with
    emotionalState := (ps.emotionalState.map clamp01).getD s.emotionalState
    instinctWeight := (ps.instinctWeight.map clamp01).getD s.instinctWeight
    confidence := (ps.confidence.map clamp01).getD s.confidence
    perseverance := (ps.perseverance.map clamp01).getD s.perseverance
    explorationWeight := ps.explorationWeight.getD s.explorationWeight
    confidenceBias := ps.confidenceBias.getD s.confidenceBias
    perseveranceFactor := ps.perseveranceFactor.getD s.perseveranceFactor }

/-- `updateParameters` applied to the node at a path. -/
def updateParamsAt (ps : ParamUpd) : List ℕ → Tree → Tree :=
  modifyAt (fun t =>
    match t with
    | .node s cs => .node (applyUpd ps s) cs)

/-- The metric assignment of `InstinctMCTS.expand` on a freshly analyzed
child: each analysis score divided by 10, with no clamping. -/
def setMetricsT (a : Analysis) : Tree → Tree
  | .node s cs => .node { s with
      emotionalState := a.emotionalState / 10
      instinctWeight := a.instinctVsAnalysis / 10
      confidence := a.confidence / 10
      perseverance := a.perseverance / 10 } cs

/-- The child-creation loop of `InstinctMCTS.expand`: for each generated
thought, attach a fresh child (`addChild`), then analyze it; when the
analysis call fails, the loop stops with the error, and the already
attached children (including the just-attached unanalyzed one) remain. -/
def buildKids (s : NodeState) (ans : ℕ → Except String Analysis) :
    List String → ℕ → List Tree × Option String
  | [], _ => ([], none)
  | th :: ths, k =>
      let child := addChildState s th
      exceptElim (ans k) (fun e => ([child], some e))
        (fun a =>
          let r := buildKids s ans ths (k + 1)
          (setMetricsT a child :: r.1, r.2))

/-- `InstinctMCTS.expand(node)` on one node, with the collaborator calls
supplied as data: `gen` is the `Promise.all` of the generation calls (all
fail together before any child is created), `ans` the per-child analysis
responses. Returns the node with its new children and the error, if any,
that the step re-throws. -/
def expandNode (gen : Except String (List String)) (ans : ℕ → Except String Analysis) :
    Tree → Tree × Option String
  | .node s cs =>
      exceptElim gen (fun e => (.node s cs, some e))
        (fun ts =>
          let r := buildKids s ans ts 0
          (.node s (cs ++ r.1), r.2))

/-- `expand` applied to the node at a path. -/
def expandAt (gen : Except String (List String)) (ans : ℕ → Except String Analysis)
    (p : List ℕ) (t : Tree) : Tree :=
  modifyAt (fun nd => (expandNode gen ans nd).1) p t

/-- `InstinctMCTS.initialize()`: the root node, with emotionalState and
instinctWeight set from the analysis (divided by 10, unclamped) and the
other metrics left at 0.5. -/
def initRoot (content : String) (cf : Coeffs) (a : Analysis) : Tree :=
  .node { newNode content cf with
      emotionalState := a.emotionalState / 10
      instinctWeight := a.instinctVsAnalysis / 10 } []

/-- The engine trees reachable by the system's write paths: initialize,
addChild, updateParameters (arbitrary, possibly out-of-range, inputs),
backpropagate (arbitrary score), and expand — with the collaborator
analyses within their contracted 1-10 scale. -/
inductive Reach : Tree → Prop where
  | init (content : String) (cf : Coeffs) (a : Analysis) :
      AnalysisOK a → Reach (initRoot content cf a)
  | child (t : Tree) (p : List ℕ) (content : String) :
      Reach t → Reach (addChildAt content p t)
  | upd (t : Tree) (p : List ℕ) (ps : ParamUpd) :
      Reach t → Reach (updateParamsAt ps p t)
  | backp (t : Tree) (p : List ℕ) (score : ℚ) :
      Reach t → Reach (backpropagate score p t)
  | expand (t : Tree) (p : List ℕ) (gen : Except String (List String))
      (ans : ℕ → Except String Analysis) :
      Reach t → (∀ k a, ans k = Except.ok a → AnalysisOK a) →
      Reach (expandAt gen ans p t)

theorem clamp01_mem (x : ℚ) : 0 ≤ clamp01 x ∧ clamp01 x ≤ 1 := by
  rw [clamp01, jsMax, jsMin]
  split_ifs <;> constructor <;> linarith

theorem optClamp_mem (v? : Option ℚ) (old : ℚ) (h0 : 0 ≤ old) (h1 : old ≤ 1) :
    0 ≤ (v?.map clamp01).getD old ∧ (v?.map clamp01).getD old ≤ 1 := by
  cases v? with
  | none => exact ⟨h0, h1⟩
  | some v => simpa using clamp01_mem v

theorem MetricsOK_newNode (content : String) (cf : Coeffs) :
    MetricsOK (newNode content cf) := by
  rw [MetricsOK, newNode]
  norm_num

theorem MetricsOK_applyUpd (ps : ParamUpd) (s : NodeState) (h : MetricsOK s) :
    MetricsOK (applyUpd ps s) := by
  obtain ⟨e0, e1, i0, i1, c0, c1, p0, p1⟩ := h
  rw [MetricsOK, applyUpd]
  refine ⟨?_, ?_, ?_, ?_, ?_, ?_, ?_, ?_⟩
  · exact (optClamp_mem ps.emotionalState _ e0 e1).1
  · exact (optClamp_mem ps.emotionalState _ e0 e1).2
  · exact (optClamp_mem ps.instinctWeight _ i0 i1).1
  · exact (optClamp_mem ps.instinctWeight _ i0 i1).2
  · exact (optClamp_mem ps.confidence _ c0 c1).1
  · exact (optClamp_mem ps.confidence _ c0 c1).2
  · exact (optClamp_mem ps.perseverance _ p0 p1).1
  · exact (optClamp_mem ps.perseverance _ p0 p1).2

theorem MetricsOK_updStat (score : ℚ) (s : NodeState) (h : MetricsOK s) :
    MetricsOK (updStat score s) := by
  obtain ⟨-, -, i0, i1, c0, c1, p0, p1⟩ := h
  rw [MetricsOK, updStat]
  have := clamp01_mem (s.emotionalState + (score / 10 - 1/2) * (1/5))
  exact ⟨this.1, this.2, i0, i1, c0, c1, p0, p1⟩

theorem MetricsOK_setMetricsT (a : Analysis) (ha : AnalysisOK a) (s : NodeState)
    (cs : List Tree) : MetricsOK ((setMetricsT a (.node s cs)).state) := by
  obtain ⟨c0, c1, p0, p1, i0, i1, e0, e1⟩ := ha
  rw [setMetricsT, MetricsOK, Tree.state]
  refine ⟨?_, ?_, ?_, ?_, ?_, ?_, ?_, ?_⟩ <;> simp <;> linarith

theorem ListOK_append (a b : List Tree) (ha : ListOK a) (hb : ListOK b) :
    ListOK (a ++ b) := by
  induction a with
  | nil => simpa using hb
  | cons x xs ih =>
      rw [ListOK] at ha
      rw [List.cons_append, ListOK]
      exact ⟨ha.1, ih ha.2⟩

theorem ListOK_modifyIdx (f : Tree → Tree) (hf : ∀ t, TreeOK t → TreeOK (f t)) :
    ∀ (i : ℕ) (cs : List Tree), ListOK cs → ListOK (modifyIdx f i cs) := by
  intro i cs
  induction cs generalizing i with
  | nil =>
      intro h
      cases i with
      | zero => exact h
      | succ j => exact h
  | cons c cs ih =>
      intro h
      rw [ListOK] at h
      cases i with
      | zero =>
          rw [modifyIdx, ListOK]
          exact ⟨hf c h.1, h.2⟩
      | succ j =>
          rw [modifyIdx, ListOK]
          exact ⟨h.1, ih j h.2⟩

theorem TreeOK_modifyAt (f : Tree → Tree) (hf : ∀ t, TreeOK t → TreeOK (f t)) :
    ∀ (p : List ℕ) (t : Tree), TreeOK t → TreeOK (modifyAt f p t) := by
  intro p
  induction p with
  | nil => intro t h; exact hf t h
  | cons i p ih =>
      intro t h
      cases t with
      | node s cs =>
          rw [TreeOK] at h
          rw [modifyAt, TreeOK]
          exact ⟨h.1, ListOK_modifyIdx (modifyAt f p) (fun u hu => ih u hu) i cs h.2⟩

theorem TreeOK_backpropagate (score : ℚ) :
    ∀ (p : List ℕ) (t : Tree), TreeOK t → TreeOK (backpropagate score p t) := by
  intro p
  induction p with
  | nil =>
      intro t h
      cases t with
      | node s cs =>
          rw [TreeOK] at h
          rw [backpropagate, TreeOK]
          exact ⟨MetricsOK_updStat score s h.1, h.2⟩
  | cons i p ih =>
      intro t h
      cases t with
      | node s cs =>
          rw [TreeOK] at h
          rw [backpropagate, TreeOK]
          exact ⟨MetricsOK_updStat score s h.1,
            ListOK_modifyIdx (backpropagate score p) (fun u hu => ih u hu) i cs h.2⟩

theorem TreeOK_addChildState (s : NodeState) (content : String) :
    TreeOK (addChildState s content) := by
  rw [addChildState, TreeOK, ListOK]
  exact ⟨MetricsOK_newNode _ _, trivial⟩

theorem buildKids_OK (s : NodeState) (ans : ℕ → Except String Analysis)
    (hans : ∀ k a, ans k = Except.ok a → AnalysisOK a) :
    ∀ (ts : List String) (k : ℕ), ListOK (buildKids s ans ts k).1 := by
  intro ts
  induction ts with
  | nil => intro k; trivial
  | cons th ths ih =>
      intro k
      rw [buildKids]
      cases hak : ans k with
      | error e =>
          rw [exceptElim_error, ListOK]
          exact ⟨TreeOK_addChildState s th, trivial⟩
      | ok a =>
          rw [exceptElim_ok]
          show ListOK (setMetricsT a (addChildState s th) :: (buildKids s ans ths (k + 1)).1)
          rw [ListOK]
          constructor
          · have ha := hans k a hak
            have hm := MetricsOK_setMetricsT a ha
              (newNode th ⟨s.explorationWeight, s.confidenceBias, s.perseveranceFactor⟩) []
            rw [setMetricsT, Tree.state] at hm
            rw [addChildState, setMetricsT, TreeOK]
            exact ⟨hm, trivial⟩
          · exact ih (k + 1)

theorem TreeOK_expandNode (gen : Except String (List String))
    (ans : ℕ → Except String Analysis)
    (hans : ∀ k a, ans k = Except.ok a → AnalysisOK a)
    (t : Tree) (h : TreeOK t) : TreeOK (expandNode gen ans t).1 := by
  cases t with
  | node s cs =>
      rw [TreeOK] at h
      cases gen with
      | error e =>
          rw [expandNode, exceptElim_error, TreeOK]
          exact h
      | ok ts =>
          rw [expandNode, exceptElim_ok]
          show TreeOK (.node s (cs ++ (buildKids s ans ts 0).1))
          rw [TreeOK]
          exact ⟨h.1, ListOK_append _ _ h.2 (buildKids_OK s ans hans ts 0)⟩

theorem TreeOK_initRoot (content : String) (cf : Coeffs) (a : Analysis)
    (ha : AnalysisOK a) : TreeOK (initRoot content cf a) := by
  obtain ⟨-, -, -, -, i0, i1, e0, e1⟩ := ha
  rw [initRoot, TreeOK, ListOK, MetricsOK, newNode]
  refine ⟨⟨?_, ?_, ?_, ?_, ?_, ?_, ?_, ?_⟩, trivial⟩ <;> simp <;> linarith

/-- C3: for every tree reachable by any sequence of the system's write
paths — node construction, addChild, updateParameters with arbitrary
(possibly out-of-range) inputs, engine initialize, expand (collaborator
analyses within their contracted 1-10 scale) and backpropagate with
arbitrary scores — the four instinct metrics of every node lie in [0,1]. -/
theorem C3_metrics_invariant (t : Tree) (h : Reach t) : TreeOK t := by
  induction h with
  | init content cf a ha => exact TreeOK_initRoot content cf a ha
  | child t p content _ ih =>
      refine TreeOK_modifyAt _ ?_ p t ih
      intro u hu
      cases u with
      | node s cs =>
          rw [TreeOK] at hu
          rw [TreeOK]
          exact ⟨hu.1, ListOK_append _ _ hu.2
            (by rw [ListOK]; exact ⟨TreeOK_addChildState s content, trivial⟩)⟩
  | upd t p ps _ ih =>
      refine TreeOK_modifyAt _ ?_ p t ih
      intro u hu
      cases u with
      | node s cs =>
          rw [TreeOK] at hu
          rw [TreeOK]
          exact ⟨MetricsOK_applyUpd ps s hu.1, hu.2⟩
  | backp t p score _ ih => exact TreeOK_backpropagate score p t ih
  | expand t p gen ans _ hans ih =>
      exact TreeOK_modifyAt _ (fun u hu => TreeOK_expandNode gen ans hans u hu) p t ih

/-- Witness for C3: a concrete reachable tree — initialize with an all-5
analysis, expand with two thoughts and all-7 analyses, then backpropagate
score 12 at the first child — satisfies the [0,1] metric invariant. -/
theorem C3_metrics_invariant_witness :
    TreeOK (backpropagate 12 [0]
      (expandAt (Except.ok ["t1", "t2"]) (fun _ => Except.ok ⟨7, 7, 7, 7⟩) []
        (initRoot "start" baseCf ⟨5, 5, 5, 5⟩))) := by
  apply C3_metrics_invariant
  apply Reach.backp
  apply Reach.expand
  · exact Reach.init "start" baseCf ⟨5, 5, 5, 5⟩ (by norm_num [AnalysisOK])
  · intro k a hk
    injection hk with h2
    rw [← h2]
    norm_num [AnalysisOK]

/-- The children attached by an `expand` whose analysis call at relative
index `k` fails: the `k` successfully analyzed children followed by the
just-attached, unanalyzed child. -/
def partialKids (s : NodeState) (f : ℕ → Analysis) (ts : List String) (k0 k : ℕ) :
    List Tree :=
  (List.range (k + 1)).map (fun j =>
    if j < k then setMetricsT (f (k0 + j)) (addChildState s (ts.getD j ""))
    else addChildState s (ts.getD k ""))

theorem partialKids_cons (s : NodeState) (f : ℕ → Analysis) (th : String)
    (ths : List String) (k0 k' : ℕ) :
    partialKids s f (th :: ths) k0 (k' + 1) =
      setMetricsT (f k0) (addChildState s th) :: partialKids s f ths (k0 + 1) k' := by
  rw [partialKids, partialKids, List.range_succ_eq_map, List.map_cons]
  congr 1
  · rw [if_pos (Nat.succ_pos k')]
    simp [List.getD]
  · rw [List.map_map]
    congr 1
    funext j
    show (if j + 1 < k' + 1 then
        setMetricsT (f (k0 + (j + 1))) (addChildState s ((th :: ths).getD (j + 1) ""))
      else addChildState s ((th :: ths).getD (k' + 1) "")) = _
    by_cases hj : j < k'
    · rw [if_pos (by omega : j + 1 < k' + 1), if_pos hj,
        show k0 + (j + 1) = k0 + 1 + j from by omega]
      simp [List.getD]
    · rw [if_neg (by omega : ¬ j + 1 < k' + 1), if_neg hj]
      simp [List.getD]

theorem buildKids_firstErr (s : NodeState) (ans : ℕ → Except String Analysis)
    (f : ℕ → Analysis) (e : String) :
    ∀ (ts : List String) (k0 k : ℕ),
      (∀ j, j < k → ans (k0 + j) = Except.ok (f (k0 + j))) →
      ans (k0 + k) = Except.error e →
      k < ts.length →
      buildKids s ans ts k0 = (partialKids s f ts k0 k, some e) := by
  intro ts
  induction ts with
  | nil =>
      intro k0 k _ _ hk
      simp at hk
  | cons th ths ih =>
      intro k0 k hok herr hk
      cases k with
      | zero =>
          rw [buildKids]
          rw [show k0 + 0 = k0 from rfl] at herr
          rw [herr, exceptElim_error]
          rw [partialKids]
          rw [show List.range (0 + 1) = [0] from rfl]
          simp [List.getD]
      | succ k' =>
          have h0 : ans k0 = Except.ok (f k0) := by
            have := hok 0 (by omega)
            simpa using this
          rw [buildKids, h0, exceptElim_ok]
          have hih := ih (k0 + 1) k'
            (fun j hj => by
              have := hok (j + 1) (by omega)
              rw [show k0 + (j + 1) = k0 + 1 + j from by omega] at this
              exact this)
            (by rw [show k0 + 1 + k' = k0 + (k' + 1) from by omega]; exact herr)
            (by simpa using Nat.lt_of_succ_lt_succ hk)
          show (setMetricsT (f k0) (addChildState s th) :: (buildKids s ans ths (k0 + 1)).1,
              (buildKids s ans ths (k0 + 1)).2) =
            (partialKids s f (th :: ths) k0 (k' + 1), some e)
          rw [hih, partialKids_cons]

/-- C8: if any collaborator call inside `expand` fails, the error
propagates unchanged; a generation failure (the `Promise.all`) leaves the
node untouched, and an analysis failure at relative index `k` leaves
attached every child created by the preceding successful calls (the `k`
analyzed children and the freshly attached `k`-th child) — expansion is
not transactional and no committed mutation is rolled back. -/
theorem C8_expand_error_propagation :
    (∀ (s : NodeState) (cs : List Tree) (e : String) (ans : ℕ → Except String Analysis),
      expandNode (Except.error e) ans (.node s cs) = (.node s cs, some e)) ∧
    (∀ (s : NodeState) (cs : List Tree) (ts : List String)
      (ans : ℕ → Except String Analysis) (f : ℕ → Analysis) (k : ℕ) (e : String),
      (∀ j, j < k → ans j = Except.ok (f j)) →
      ans k = Except.error e →
      k < ts.length →
      expandNode (Except.ok ts) ans (.node s cs) =
        (.node s (cs ++ partialKids s f ts 0 k), some e)) := by
  constructor
  · intro s cs e ans
    rfl
  · intro s cs ts ans f k e hok herr hk
    have hb := buildKids_firstErr s ans f e ts 0 k
      (fun j hj => by simpa using hok j hj) (by simpa using herr) hk
    rw [expandNode, exceptElim_ok]
    show (Tree.node s (cs ++ (buildKids s ans ts 0).1), (buildKids s ans ts 0).2) =
      (Tree.node s (cs ++ partialKids s f ts 0 k), some e)
    rw [hb]

/-- A collaborator whose first analysis call succeeds and whose second
fails. -/
def boomAns : ℕ → Except String Analysis :=
  fun j => if j < 1 then Except.ok ⟨7, 7, 7, 7⟩ else Except.error "boom"

/-- Witness for C8 at a concrete expand: three thoughts, the analysis of
the second child fails; the analyzed first child and the fresh second
child stay attached and the error propagates unchanged. -/
theorem C8_expand_error_propagation_witness :
    expandNode (Except.ok ["a", "b", "c"]) boomAns (.node (newNode "p" baseCf) []) =
      (.node (newNode "p" baseCf)
        ([] ++ partialKids (newNode "p" baseCf) (fun _ => ⟨7, 7, 7, 7⟩) ["a", "b", "c"] 0 1),
        some "boom") := by
  exact C8_expand_error_propagation.2 (newNode "p" baseCf) [] ["a", "b", "c"] boomAns
    (fun _ => ⟨7, 7, 7, 7⟩) 1 "boom"
    (by
      intro j hj
      have hj0 : j = 0 := by omega
      subst hj0
      rfl)
    (by rfl)
    (by norm_num)

/-! ## The two-argument simulate (runFullSearch) under JS method shadowing

`InstinctMCTS` defines `async simulate(node)` and later
`async simulate(iterations, simulationsPerIteration)`; in a JS class body
the later definition replaces the earlier, so every `this.simulate(x)`
call dispatches to the two-argument method. -/

/-- A JS value as it flows through the score bookkeeping of the
two-argument `simulate`. -/
inductive JsVal where
  | num (q : ℚ)
  | negInf
  | resultObj
  deriving Repr, DecidableEq

/-- JS `>`: `-Infinity` is below every number; a non-numeric object
coerces to NaN and every comparison involving NaN is false. -/
def jsGtBool : JsVal → JsVal → Bool
  | .num a, .num b => decide (b < a)
  | .num _, .negInf => true
  | _, _ => false

/-- The argument of the two-argument `simulate`: the documented call
passes an iteration count, the reentrant `this.simulate(currentBest)`
call passes a node reference. -/
inductive JsArg where
  | count (n : ℕ)
  | nodeRef

/-- Loop bound of `for (let i = 0; i < iterations; i++)`: an object
argument coerces to NaN, `0 < NaN` is false, so a node reference runs
zero rounds. -/
def jsIter : JsArg → ℕ
  | .count n => n
  | .nodeRef => 0

/-- The record the two-argument `simulate` resolves with (snapshot
history omitted). -/
structure SimResult where
  bestApproach : String
  bestNode : Tree
  bestScore : JsVal

/-- One round of the two-argument `simulate`: run a search batch (its
tree effect abstracted as `step`; the score bookkeeping does not depend
on it), recompute the best node, then score it with
`this.simulate(currentBest)` — which, the node evaluator being shadowed,
is this same two-argument method called with a node reference: it runs
zero rounds and resolves with its result object, so the score compared is
`resultObj`, not a number. `bn = none` models the `bestNode` variable
still holding the root reference. -/
def fullLoop (step : ℕ → Tree → Tree) :
    ℕ → ℕ → Tree → Option Tree → JsVal → Tree × Option Tree × JsVal
  | 0, _, t, bn, bs => (t, bn, bs)
  | n + 1, i, t, bn, bs =>
      fullLoop step n (i + 1) (step i t)
        (if jsGtBool .resultObj bs then some (bestDescend (step i t)) else bn)
        (if jsGtBool .resultObj bs then JsVal.resultObj else bs)

/-- The two-argument `simulate` on an initialized engine: run the rounds
from `bestScore = -Infinity`, then build the result record; `bn = none`
(never reassigned) dereferences to the root object in its final state. -/
def simulateRun (step : ℕ → Tree → Tree) (arg : JsArg) (root : Tree) :
    Tree × SimResult :=
  let r := fullLoop step (jsIter arg) 0 root none .negInf
  let bn := r.2.1.getD r.1
  (r.1, { bestApproach := bn.state.content, bestNode := bn, bestScore := r.2.2 })

theorem fullLoop_inv (step : ℕ → Tree → Tree) :
    ∀ (n i : ℕ) (t : Tree),
      (fullLoop step n i t none .negInf).2.1 = none ∧
      (fullLoop step n i t none .negInf).2.2 = JsVal.negInf := by
  intro n
  induction n with
  | zero => intro i t; exact ⟨rfl, rfl⟩
  | succ m ih =>
      intro i t
      rw [fullLoop]
      rw [show jsGtBool .resultObj .negInf = false from rfl]
      simp only [Bool.false_eq_true, if_false]
      exact ih (i + 1) (step i t)

/-- C1 (the code diverges from the claim): because the two same-named
`simulate` methods shadow each other, the per-round re-evaluation
`this.simulate(currentBest)` returns a result object rather than a fresh
numeric score; `object > -Infinity` is always false, so for every
iteration count and every search-batch behaviour the engine returns the
root node with `bestScore = -Infinity` — never the best-scoring node with
the running maximum of fresh scores. The reentrant inner call itself runs
zero rounds and resolves immediately with the trivial record. -/
theorem C1_full_search_dispatch (step : ℕ → Tree → Tree) (n : ℕ) (root : Tree) :
    ((simulateRun step (.count n) root).2.bestScore = JsVal.negInf ∧
      (simulateRun step (.count n) root).2.bestNode = (simulateRun step (.count n) root).1 ∧
      (simulateRun step (.count n) root).2.bestApproach =
        (simulateRun step (.count n) root).1.state.content) ∧
    simulateRun step .nodeRef root =
      (root, ⟨root.state.content, root, JsVal.negInf⟩) := by
  obtain ⟨h1, h2⟩ := fullLoop_inv step n 0 root
  constructor
  · refine ⟨?_, ?_, ?_⟩
    · show (fullLoop step n 0 root none .negInf).2.2 = JsVal.negInf
      exact h2
    · show ((fullLoop step n 0 root none .negInf).2.1.getD
          (fullLoop step n 0 root none .negInf).1) =
        (fullLoop step n 0 root none .negInf).1
      rw [h1]
      rfl
    · show ((fullLoop step n 0 root none .negInf).2.1.getD
          (fullLoop step n 0 root none .negInf).1).state.content =
        (fullLoop step n 0 root none .negInf).1.state.content
      rw [h1]
      rfl
  · rfl

/-- Witness for C7 at the concrete sibling visit counts 5, 2, 9: the
kept child's visit count dominates B's. -/
theorem C7_getBestNode_most_visited_witness :
    (Tree.node (mkStat "B" 2 0) []).state.visits ≤
      (pickChild (Tree.node (mkStat "A" 5 0) [])
        [Tree.node (mkStat "B" 2 0) [], Tree.node (mkStat "C" 9 0) []]).state.visits := by
  obtain ⟨i, h, hget, hmax, hpre⟩ := C7_getBestNode_most_visited.2.2.1
    (Tree.node (mkStat "A" 5 0) [])
    [Tree.node (mkStat "B" 2 0) [], Tree.node (mkStat "C" 9 0) []]
  exact hmax (Tree.node (mkStat "B" 2 0) []) (by simp)
